import Mathlib

/-!
# Verification of the Alofi navigation core (src/app.py)

Shallow embedding of the algorithmic core of `src/app.py`:

* `calculate_co2` — pure CO₂ estimate from edge length;
* `estimate_ventilation` — ventilation-penalty heuristic from the `highway` tag;
* `find_nearest_node` — linear scan for the node minimising a distance function
  (the concrete great-circle distance is computed by the external `geopy`
  library, so the scan is verified for an arbitrary distance function);
* `get_diverse_routes` — iterative penalised shortest-path search.  The call
  `nx.shortest_path(G_temp, source, target, weight='travel_time')` is external
  library code (networkx Dijkstra); it is modelled by its contract on
  non-negative weights: the minimum-weight simple path from source to target,
  or no value when none exists (corresponding to `nx.NetworkXNoPath`), computed
  here by exhaustive enumeration of simple paths;
* `summarize_routes` — per-route aggregation.  Python locals that can be read
  before assignment (`vent_count`) are threaded explicitly as `Option`
  state, and a read of an unassigned local (`UnboundLocalError`) or an index
  into an empty list (`IndexError` in `estimate_ventilation`) makes the
  embedded function return `none`.

Python floats are modelled by `ℚ`; all constants appearing in the source
(150, 0.05, 10, 100, 2.0, 60) are exactly representable.  The graph is a
simple directed graph: nodes in iteration order, edges keyed by ordered pair,
each edge carrying the attributes the core reads (`length`, `travel_time`,
`highway`, optional `ventilation_penalty`).  The display-only `round(_, 2)`
calls of the summary table are omitted (the spec keeps full precision
internally); every other arithmetic step is embedded exactly.
-/

namespace Alofi

/-- The `highway` attribute of an edge: absent (Python `edge.get('highway','')`
yields `''`), a plain string, or a list of strings. -/
inductive HighwayTag where
  | absent : HighwayTag
  | str : String → HighwayTag
  | list : List String → HighwayTag
  deriving DecidableEq, Repr

/-- `calculate_co2` from src/app.py line 10:
`(length_meters / 1000) * emission_rate_g_per_km`, default rate 150. -/
def calculate_co2 (length_meters : ℚ) (emission_rate_g_per_km : ℚ := 150) : ℚ :=
  length_meters / 1000 * emission_rate_g_per_km

/-- The value of the local `highway` after the `isinstance(highway, list)`
normalisation in `estimate_ventilation`: `highway[0]` on an empty list raises
`IndexError`, embedded as `none`. -/
def firstHighway : HighwayTag → Option String
  | HighwayTag.absent => some ""
  | HighwayTag.str s => some s
  | HighwayTag.list [] => none
  | HighwayTag.list (s :: _) => some s

/-- The classification chain of `estimate_ventilation` (src/app.py lines 18-23). -/
def classifyHighway (s : String) : ℚ :=
  if s = "motorway" ∨ s = "tunnel" then 3
  else if s = "primary" ∨ s = "secondary" then 2
  else 1

/-- `estimate_ventilation` from src/app.py lines 14-23, as a function of the
edge's `highway` tag (the only attribute it reads). -/
def estimate_ventilation (highway : HighwayTag) : Option ℚ :=
  (firstHighway highway).map classifyHighway

/-- One node of the graph: identifier plus the `y`/`x` coordinate attributes
read by `find_nearest_node`. -/
structure NodeData where
  id : ℕ
  y : ℚ
  x : ℚ
  deriving DecidableEq, Repr

/-- The edge attributes read by the core.  `travel_time` is the weight used
and mutated by the planner; `length` feeds `calculate_co2`;
`ventilation_penalty` is optional with `estimate_ventilation` as fallback. -/
structure EdgeAttrs where
  length : ℚ
  travel_time : ℚ
  highway : HighwayTag
  ventilation_penalty : Option ℚ
  deriving DecidableEq, Repr

/-- A graph: nodes in iteration order and directed edges keyed by ordered
node pair. -/
structure Graph where
  nodes : List NodeData
  edges : List (ℕ × ℕ × EdgeAttrs)
  deriving DecidableEq, Repr

/-- `G.get_edge_data(u, v)`: the attribute record of edge `(u, v)`, if any. -/
def Graph.get_edge_data (g : Graph) (u v : ℕ) : Option EdgeAttrs :=
  (g.edges.find? (fun e => e.1 = u && e.2.1 = v)).map (fun e => e.2.2)

/-- `G.has_edge(u, v)`. -/
def Graph.has_edge (g : Graph) (u v : ℕ) : Bool :=
  (g.get_edge_data u v).isSome

/-- The node identifiers of the graph, in iteration order. -/
def Graph.nodeIds (g : Graph) : List ℕ :=
  g.nodes.map NodeData.id

/-- The `travel_time` weight table of the graph, as read by
`nx.shortest_path(..., weight='travel_time')` (networkx reads a missing
weight attribute as 1; on pairs that are not edges the value is never
consumed by the search). -/
def Graph.travelW (g : Graph) : ℕ → ℕ → ℚ :=
  fun u v => ((g.get_edge_data u v).map EdgeAttrs.travel_time).getD 1

/-- `zip(route[:-1], route[1:])`: the consecutive node pairs of a route. -/
def routePairs (p : List ℕ) : List (ℕ × ℕ) :=
  p.zip p.tail

/-- Total weight of a route under a weight table: the sum of the weights of
its consecutive pairs. -/
def routeWeight (w : ℕ → ℕ → ℚ) (p : List ℕ) : ℚ :=
  ((routePairs p).map (fun uv => w uv.1 uv.2)).sum

/-- `p` is a walk of the graph from `s` to `t`: nonempty, starts at `s`,
ends at `t`, every node is a graph node and every consecutive pair is an
edge. -/
def isRoute (g : Graph) (s t : ℕ) (p : List ℕ) : Prop :=
  p.head? = some s ∧ p.getLast? = some t ∧
  (∀ x ∈ p, x ∈ g.nodeIds) ∧
  (∀ uv ∈ routePairs p, g.has_edge uv.1 uv.2 = true)

instance (g : Graph) (s t : ℕ) (p : List ℕ) : Decidable (isRoute g s t p) := by
  unfold isRoute; infer_instance

/-- `p` is a simple path of the graph from `s` to `t` (no repeated node) —
the kind of path Dijkstra returns. -/
def isSimpleRoute (g : Graph) (s t : ℕ) (p : List ℕ) : Prop :=
  isRoute g s t p ∧ p.Nodup

instance (g : Graph) (s t : ℕ) (p : List ℕ) : Decidable (isSimpleRoute g s t p) := by
  unfold isSimpleRoute; infer_instance

/-- All simple paths from `u` to `t` avoiding `visited`, with enough fuel;
DFS enumeration used to model the networkx shortest-path search. -/
def pathsFrom (g : Graph) (t : ℕ) : ℕ → ℕ → List ℕ → List (List ℕ)
  | 0, u, _ => if u = t then [[t]] else []
  | fuel + 1, u, visited =>
    if u = t then [[t]]
    else
      (g.nodeIds.filter fun v =>
          g.has_edge u v && decide (v ∉ u :: visited)).flatMap
        fun v => (pathsFrom g t fuel v (u :: visited)).map (fun p => u :: p)

/-- All simple paths of `g` from `s` to `t` (fuel `g.nodes.length` suffices
because a simple path cannot be longer than the node list). -/
def simplePaths (g : Graph) (s t : ℕ) : List (List ℕ) :=
  pathsFrom g t g.nodes.length s []

/-- First minimum of a list under a cost function (strict comparison, so the
earliest minimum wins). -/
def pickMinBy (f : List ℕ → ℚ) : List (List ℕ) → Option (List ℕ)
  | [] => none
  | p :: ps => some (ps.foldl (fun best q => if f q < f best then q else best) p)

/-- Model of `nx.shortest_path(G_temp, source=s, target=t, weight='travel_time')`
(src/app.py lines 73-75): a minimum-weight simple path from `s` to `t` under
the current weight table, or `none` when no path exists (the
`nx.NetworkXNoPath` case). -/
def shortest_path (g : Graph) (w : ℕ → ℕ → ℚ) (s t : ℕ) : Option (List ℕ) :=
  pickMinBy (routeWeight w) (simplePaths g s t)

/-- Pointwise update of a weight table:
`G_temp[u][v]['travel_time'] *= penalty_factor`. -/
def bumpW (w : ℕ → ℕ → ℚ) (u v : ℕ) (P : ℚ) : ℕ → ℕ → ℚ :=
  fun a b => if a = u ∧ b = v then w u v * P else w a b

/-- The penalisation loop of src/app.py lines 77-79: for every consecutive
pair of the found route that is an edge, multiply its working `travel_time`
by the penalty factor. -/
def applyPenalties (g : Graph) (P : ℚ) (w : ℕ → ℕ → ℚ) (route : List ℕ) : ℕ → ℕ → ℚ :=
  (routePairs route).foldl
    (fun w uv => if g.has_edge uv.1 uv.2 then bumpW w uv.1 uv.2 P else w) w

/-- The `for i in range(num_routes)` loop of `get_diverse_routes`: find a
shortest path under the working weights, append it, penalise its edges; stop
at the first `NetworkXNoPath` and return the routes found so far. -/
def diverseLoop (g : Graph) (s t : ℕ) (P : ℚ) : ℕ → (ℕ → ℕ → ℚ) → List (List ℕ)
  | 0, _ => []
  | n + 1, w =>
    match shortest_path g w s t with
    | none => []
    | some route => route :: diverseLoop g s t P n (applyPenalties g P w route)

/-- `get_diverse_routes` from src/app.py lines 67-84.  `G_temp = graph.copy()`
duplicates the edge-attribute dicts (networkx `Graph.copy`), so the loop works
on a working copy of the `travel_time` table; the original graph is a separate
value. -/
def get_diverse_routes (start_node end_node : ℕ) (graph : Graph)
    (num_routes : ℕ := 5) (penalty_factor : ℚ := 2) : List (List ℕ) :=
  diverseLoop graph start_node end_node penalty_factor num_routes graph.travelW

/-- `get_diverse_routes` with the mutable state made explicit: the pair of
the working weights (written by the penalisation) and the original graph
(never written — `G_temp = graph.copy()` copies the attribute dicts, so the
write `G_temp[u][v]['travel_time'] *= P` addresses only the copy).  Returns
the routes together with the original graph as it stands after the call. -/
def diverseLoopFull (g : Graph) (s t : ℕ) (P : ℚ) :
    ℕ → (ℕ → ℕ → ℚ) → Graph → List (List ℕ) × Graph
  | 0, _, orig => ([], orig)
  | n + 1, w, orig =>
    match shortest_path g w s t with
    | none => ([], orig)
    | some route =>
      let rest := diverseLoopFull g s t P n (applyPenalties g P w route) orig
      (route :: rest.1, rest.2)

/-- Entry point of the stateful model of `get_diverse_routes`. -/
def get_diverse_routes_full (start_node end_node : ℕ) (graph : Graph)
    (num_routes : ℕ := 5) (penalty_factor : ℚ := 2) : List (List ℕ) × Graph :=
  diverseLoopFull graph start_node end_node penalty_factor num_routes graph.travelW graph

/-- Number of times the directed pair `(u, v)` is traversed by a route. -/
def pairCount (r : List ℕ) (u v : ℕ) : ℕ :=
  (routePairs r).count (u, v)

/-- Number of times `(u, v)` is traversed across a list of routes. -/
def usedCount (rs : List (List ℕ)) (u v : ℕ) : ℕ :=
  (rs.map (fun r => pairCount r u v)).sum

/-- The original `travel_time` weights with every edge multiplied by
`P` raised to the number of times the edge was traversed by the routes in
`rs` — the weight table the spec says iteration `|rs| + 1` searches under. -/
def accumW (g : Graph) (P : ℚ) (rs : List (List ℕ)) : ℕ → ℕ → ℚ :=
  fun u v => g.travelW u v * P ^ usedCount rs u v

/-- `p` is a shortest path from `s` to `t` under `w`: a simple route whose
weight is at most the weight of every simple route from `s` to `t`. -/
def isShortestRoute (g : Graph) (w : ℕ → ℕ → ℚ) (s t : ℕ) (p : List ℕ) : Prop :=
  isSimpleRoute g s t p ∧
  ∀ q, isSimpleRoute g s t q → routeWeight w p ≤ routeWeight w q

/-- `find_nearest_node` from src/app.py lines 55-64, for an arbitrary
distance function `dist` (the source applies the external
`geopy.distance.great_circle(...).meters`, always a finite float, so the
first node always beats the initial `min_dist = inf`): linear scan keeping
the strictly closest node seen so far. -/
def fnnStep (dist : ℚ × ℚ → ℚ × ℚ → ℚ) (coord : ℚ × ℚ)
    (acc : Option (ℚ × ℕ)) (nd : NodeData) : Option (ℚ × ℕ) :=
  match acc with
  | none => some (dist coord (nd.y, nd.x), nd.id)
  | some (m, b) =>
    if dist coord (nd.y, nd.x) < m then some (dist coord (nd.y, nd.x), nd.id)
    else some (m, b)

/-- `find_nearest_node` itself: fold the scan step over the node list,
starting from `nearest_node = None`, and return the kept identifier. -/
def find_nearest_node (dist : ℚ × ℚ → ℚ × ℚ → ℚ) (g : Graph) (coord : ℚ × ℚ) : Option ℕ :=
  (g.nodes.foldl (fnnStep dist coord) none).map Prod.snd

/-- `(m, b)` is the state the scan must reach on node list `l`: `b` is the
identifier and `m` the distance of the first node of `l` (in iteration
order) whose distance to the query is minimal: it beats every node weakly
and every node strictly before it strictly. -/
def foldBest (dist : ℚ × ℚ → ℚ × ℚ → ℚ) (coord : ℚ × ℚ)
    (l : List NodeData) (m : ℚ) (b : ℕ) : Prop :=
  ∃ pre nd post, l = pre ++ nd :: post ∧
    dist coord (nd.y, nd.x) = m ∧ nd.id = b ∧
    (∀ q ∈ l, m ≤ dist coord (q.y, q.x)) ∧
    (∀ q ∈ pre, m < dist coord (q.y, q.x))

/-- `r` is the identifier of the first node of `g` (in iteration order)
whose distance to `coord` is minimal. -/
def nearestFirst (dist : ℚ × ℚ → ℚ × ℚ → ℚ) (g : Graph) (coord : ℚ × ℚ) (r : ℕ) : Prop :=
  ∃ pre nd post, g.nodes = pre ++ nd :: post ∧ nd.id = r ∧
    (∀ q ∈ g.nodes, dist coord (nd.y, nd.x) ≤ dist coord (q.y, q.x)) ∧
    (∀ q ∈ pre, dist coord (nd.y, nd.x) < dist coord (q.y, q.x))

/-- Running totals of the inner loop of `summarize_routes`
(src/app.py lines 109-113). -/
structure RouteAcc where
  total_length : ℚ
  total_time : ℚ
  total_co2 : ℚ
  total_ventilation : ℚ
  total_score : ℚ
  deriving DecidableEq, Repr

/-- The zero-initialised totals of src/app.py lines 109-113. -/
def RouteAcc.zero : RouteAcc :=
  ⟨0, 0, 0, 0, 0⟩

/-- Componentwise sum of totals. -/
def RouteAcc.add (a b : RouteAcc) : RouteAcc :=
  ⟨a.total_length + b.total_length, a.total_time + b.total_time,
   a.total_co2 + b.total_co2, a.total_ventilation + b.total_ventilation,
   a.total_score + b.total_score⟩

/-- The edge's ventilation value used by the aggregator:
`edge.get('ventilation_penalty', estimate_ventilation(edge))`
(src/app.py line 127).  Python evaluates the `dict.get` default argument
EAGERLY: `estimate_ventilation(edge)` runs for every found edge, so an
empty-list `highway` tag raises `IndexError` (embedded: `none`) even when
an explicit `ventilation_penalty` is present and would have been used. -/
def edgeVent (e : EdgeAttrs) : Option ℚ :=
  match estimate_ventilation e.highway with
  | none => none
  | some fallback =>
    match e.ventilation_penalty with
    | some v => some v
    | none => some fallback

/-- One pass of the edge loop of `summarize_routes` (src/app.py lines
115-133) over a single consecutive pair.  The state is `none` after a Python
exception, otherwise the running totals together with the `vent_count` local
(`none` while still unassigned).  A pair with no edge record leaves the
state unchanged; a found edge adds its contributions and assigns
`vent_count = len(route) - 1`. -/
def summStep (g : Graph) (nroute : ℕ) (st : Option (RouteAcc × Option ℕ)) (uv : ℕ × ℕ) :
    Option (RouteAcc × Option ℕ) :=
  match st with
  | none => none
  | some (acc, vc) =>
    match g.get_edge_data uv.1 uv.2 with
    | none => some (acc, vc)
    | some e =>
      match edgeVent e with
      | none => none
      | some vent =>
        let calculated_co2 := calculate_co2 e.length
        let score := max 0 (min 100 (100 - 0.05 * calculated_co2 - 10 * vent))
        some (⟨acc.total_length + e.length, acc.total_time + e.travel_time,
               acc.total_co2 + calculated_co2, acc.total_ventilation + vent,
               acc.total_score + score⟩, some (nroute - 1))

/-- The contribution of one consecutive pair to the totals: zero for a pair
with no edge record (or an unresolvable ventilation, which in Python aborts
the call instead), otherwise the pair's length, travel time, CO₂,
ventilation and clamped sustainability score. -/
def pairTotals (g : Graph) (uv : ℕ × ℕ) : RouteAcc :=
  match g.get_edge_data uv.1 uv.2 with
  | none => RouteAcc.zero
  | some e =>
    match edgeVent e with
    | none => RouteAcc.zero
    | some vent =>
      let calculated_co2 := calculate_co2 e.length
      let score := max 0 (min 100 (100 - 0.05 * calculated_co2 - 10 * vent))
      ⟨e.length, e.travel_time, calculated_co2, vent, score⟩

/-- The per-edge sustainability contribution
`clamp(100 - 0.05*co2_edge - 10*ventilation_edge, 0, 100)` of a pair
(src/app.py lines 131-132); zero for a pair with no edge record. -/
def pairScore (g : Graph) (uv : ℕ × ℕ) : ℚ :=
  (pairTotals g uv).total_score

/-- Whether a consecutive pair has an edge record (the `if edge:` test of
src/app.py line 117). -/
def pairFound (g : Graph) (uv : ℕ × ℕ) : Bool :=
  (g.get_edge_data uv.1 uv.2).isSome

/-- Componentwise sum of the contributions of a list of consecutive pairs. -/
def listTotals (g : Graph) (l : List (ℕ × ℕ)) : RouteAcc :=
  (l.map (pairTotals g)).foldr RouteAcc.add RouteAcc.zero

/-- One row of the summary table of `summarize_routes` (src/app.py lines
136-144), at full precision (the source's `round(_, d)` calls are display
formatting; the spec keeps full precision internally).  `travel_time_min`
is `total_time / 60` and `ventilation_penalty` is
`total_ventilation / vent_count`. -/
structure RouteRow where
  nodes : ℕ
  distance_m : ℚ
  travel_time_min : ℚ
  co2_g : ℚ
  ventilation_penalty : ℚ
  sustainability_score : ℚ
  deriving DecidableEq, Repr

/-- Summarise one route given the incoming value of the function-scoped
`vent_count` local (which survives from earlier routes of the same call):
run the edge loop, then build the row; reading `vent_count` while still
unassigned is Python's `UnboundLocalError`, embedded as `none`. -/
def summRoute (g : Graph) (route : List ℕ) (vc0 : Option ℕ) :
    Option (RouteRow × Option ℕ) :=
  match (routePairs route).foldl (summStep g route.length) (some (RouteAcc.zero, vc0)) with
  | none => none
  | some (acc, vc) =>
    match vc with
    | none => none
    | some k =>
      some (⟨route.length, acc.total_length, acc.total_time / 60, acc.total_co2,
             acc.total_ventilation / (k : ℚ), acc.total_score⟩, some k)

/-- The route loop of `summarize_routes`, threading the `vent_count` local
across routes. -/
def summList (g : Graph) : List (List ℕ) → Option ℕ → Option (List RouteRow)
  | [], _ => some []
  | r :: rs, vc =>
    match summRoute g r vc with
    | none => none
    | some (row, vc2) =>
      match summList g rs vc2 with
      | none => none
      | some rows => some (row :: rows)

/-- `summarize_routes` from src/app.py lines 106-146: one summary row per
route, or `none` when the Python code raises (`UnboundLocalError` on
`vent_count`, or `IndexError` inside `estimate_ventilation`). -/
def summarize_routes (g : Graph) (routes : List (List ℕ)) : Option (List RouteRow) :=
  summList g routes none

/-- Residential edge attributes used by the concrete test graphs. -/
def resEdge (len tt : ℚ) : EdgeAttrs :=
  ⟨len, tt, HighwayTag.str "residential", none⟩

/-- Triangle graph: a two-hop cheap path `0 → 1 → 2` and a direct edge
`0 → 2`. -/
def gTri : Graph :=
  ⟨[⟨0, 0, 0⟩, ⟨1, 0, 1⟩, ⟨2, 0, 2⟩],
   [(0, 1, resEdge 1000 1), (1, 2, resEdge 1000 1), (0, 2, resEdge 3000 3)]⟩

/-- Two nodes with no edge at all: `0` and `1` are disconnected. -/
def gNoEdges : Graph :=
  ⟨[⟨0, 0, 0⟩, ⟨1, 5, 5⟩], []⟩

/-- Three nodes in a line with only the first edge present: the pair
`(1, 2)` of the route `[0, 1, 2]` has no edge record. -/
def gMiss : Graph :=
  ⟨[⟨0, 0, 0⟩, ⟨1, 0, 1⟩, ⟨2, 0, 2⟩], [(0, 1, resEdge 5 60)]⟩

/-- Two zero-length residential edges: each contributes sustainability
score 90, so the route total 180 exceeds 100. -/
def gScore : Graph :=
  ⟨[⟨0, 0, 0⟩, ⟨1, 0, 1⟩, ⟨2, 0, 2⟩], [(0, 1, resEdge 0 1), (1, 2, resEdge 0 1)]⟩

/-- Two nodes for the nearest-node scan, ids 5 and 7. -/
def gNear : Graph :=
  ⟨[⟨5, 0, 0⟩, ⟨7, 10, 10⟩], []⟩

/-- A concrete computable distance function (squared euclidean) used to
instantiate the nearest-node theorem. -/
def sqDist (c p : ℚ × ℚ) : ℚ :=
  (c.1 - p.1) * (c.1 - p.1) + (c.2 - p.2) * (c.2 - p.2)

end Alofi

namespace Alofi

/-! ## Theorems -/

/-- The original graph threaded through the stateful planner loop is never
written. -/
theorem diverseLoopFull_spec (g : Graph) (s t : ℕ) (P : ℚ) :
    ∀ n w orig, (diverseLoopFull g s t P n w orig).2 = orig ∧
      (diverseLoopFull g s t P n w orig).1 = diverseLoop g s t P n w := by
  intro n
  induction n with
  | zero => intro w orig; exact ⟨rfl, rfl⟩
  | succ n ih =>
    intro w orig
    simp only [diverseLoopFull, diverseLoop]
    cases h : shortest_path g w s t with
    | none => exact ⟨rfl, rfl⟩
    | some r => simpa using ih (applyPenalties g P w r) orig

/-- C6: the planner never mutates the input graph: all penalisation is
applied to the working copy of the `travel_time` weights (modelled by the
weight table threaded through `diverseLoopFull`), and after the call every
node, edge and edge attribute of the original graph is unchanged; moreover
the stateful model returns exactly the routes of `get_diverse_routes`. -/
theorem C6_graph_not_mutated (start_node end_node : ℕ) (graph : Graph) (N : ℕ) (P : ℚ) :
    (get_diverse_routes_full start_node end_node graph N P).2 = graph ∧
    (get_diverse_routes_full start_node end_node graph N P).1 =
      get_diverse_routes start_node end_node graph N P :=
  diverseLoopFull_spec graph start_node end_node P N graph.travelW graph

/-- C4 (code bug): summarising a single one-node route does not return a
zero-valued summary row — the edge loop never runs, the `vent_count` local
is never assigned, and the division `total_ventilation / vent_count` raises
`UnboundLocalError` (embedded: the result is `none`), for every graph and
every node. -/
theorem C4_single_node_summary_fails (g : Graph) (s : ℕ) :
    summarize_routes g [[s]] = none := rfl

/-- C8: `calculate_co2` is monotone non-decreasing in the length, returns 0
for length 0, and returns 300 g for a 2000 m edge at the default rate of
150 g/km. -/
theorem C8_co2 (l1 l2 : ℚ) (h : l1 ≤ l2) :
    calculate_co2 l1 ≤ calculate_co2 l2 ∧
    calculate_co2 0 = 0 ∧ calculate_co2 2000 = 300 := by
  refine ⟨?_, by norm_num [calculate_co2], by norm_num [calculate_co2]⟩
  unfold calculate_co2
  linarith

/-- Witness for C8 at lengths 0 and 2000. -/
theorem C8_co2_witness :
    (0 : ℚ) ≤ 2000 ∧
    (calculate_co2 0 ≤ calculate_co2 2000 ∧
      calculate_co2 0 = 0 ∧ calculate_co2 2000 = 300) :=
  ⟨by norm_num, C8_co2 0 2000 (by norm_num)⟩

/-- C10: `estimate_ventilation` is total with value in {1, 2, 3} whenever
the `highway` tag is absent, a string, or a non-empty list; the value is 3
for motorway/tunnel, 2 for primary/secondary, 1 otherwise; only the first
list element is examined; and on an empty list the first-element lookup has
no value (Python `IndexError`). -/
theorem C10_ventilation_total (h : HighwayTag) (hne : h ≠ HighwayTag.list []) :
    (∃ v, estimate_ventilation h = some v ∧ (v = 1 ∨ v = 2 ∨ v = 3)) ∧
    (∀ s, firstHighway h = some s →
      estimate_ventilation h =
        some (if s = "motorway" ∨ s = "tunnel" then 3
          else if s = "primary" ∨ s = "secondary" then 2 else 1)) ∧
    (∀ s l, estimate_ventilation (HighwayTag.list (s :: l)) =
      estimate_ventilation (HighwayTag.str s)) ∧
    estimate_ventilation (HighwayTag.list []) = none := by
  refine ⟨?_, ?_, fun s l => rfl, rfl⟩
  · match h with
    | HighwayTag.absent =>
      exact ⟨1, rfl, Or.inl rfl⟩
    | HighwayTag.str s =>
      refine ⟨classifyHighway s, rfl, ?_⟩
      unfold classifyHighway
      split
      · exact Or.inr (Or.inr rfl)
      · split
        · exact Or.inr (Or.inl rfl)
        · exact Or.inl rfl
    | HighwayTag.list [] => exact absurd rfl hne
    | HighwayTag.list (s :: l) =>
      refine ⟨classifyHighway s, rfl, ?_⟩
      unfold classifyHighway
      split
      · exact Or.inr (Or.inr rfl)
      · split
        · exact Or.inr (Or.inl rfl)
        · exact Or.inl rfl
  · intro s hs
    simp only [estimate_ventilation, hs, Option.map_some]
    unfold classifyHighway
    rfl

/-- Witness for C10 at the tag `['motorway', 'link']`. -/
theorem C10_ventilation_total_witness :
    HighwayTag.list ["motorway", "link"] ≠ HighwayTag.list [] ∧
    (∃ v, estimate_ventilation (HighwayTag.list ["motorway", "link"]) = some v ∧
      (v = 1 ∨ v = 2 ∨ v = 3)) :=
  ⟨by decide,
   (C10_ventilation_total (HighwayTag.list ["motorway", "link"]) (by decide)).1⟩

/-- Invariant of the nearest-node scan: on any node list the fold is `none`
exactly on the empty list, and any kept state `(min_dist, nearest_node)` is
the first minimum of the list. -/
theorem fnnFold_spec (dist : ℚ × ℚ → ℚ × ℚ → ℚ) (coord : ℚ × ℚ) (l : List NodeData) :
    (l.foldl (fnnStep dist coord) none = none ↔ l = []) ∧
    ∀ m b, l.foldl (fnnStep dist coord) none = some (m, b) →
      foldBest dist coord l m b := by
  induction l using List.reverseRecOn with
  | nil =>
    constructor
    · simp
    · intro m b h
      simp [List.foldl] at h
  | append_singleton l a ih =>
    rw [List.foldl_append]
    cases hprev : l.foldl (fnnStep dist coord) none with
    | none =>
      have hl : l = [] := ih.1.mp hprev
      subst hl
      constructor
      · simp [fnnStep]
      · intro m b h
        simp only [List.foldl, fnnStep] at h
        rw [Option.some.injEq, Prod.mk.injEq] at h
        obtain ⟨hm, hb⟩ := h
        refine ⟨[], a, [], by simp, hm, hb, ?_, by simp⟩
        intro q hq
        simp only [List.nil_append, List.mem_singleton] at hq
        subst hq
        exact le_of_eq hm.symm
    | some p =>
      obtain ⟨m0, b0⟩ := p
      obtain ⟨pre, nd, post, hsplit, hd, hid, hall, hpre⟩ := ih.2 m0 b0 hprev
      constructor
      · constructor
        · intro h
          simp only [List.foldl, fnnStep] at h
          split at h
          · exact absurd h (by simp)
          · exact absurd h (by simp)
        · intro h
          exact absurd h (by simp)
      · intro m b h
        simp only [List.foldl, fnnStep] at h
        split at h
        · rw [Option.some.injEq, Prod.mk.injEq] at h
          obtain ⟨hm, hb⟩ := h
          rename_i hlt
          refine ⟨l, a, [], by simp, hm, hb, ?_, ?_⟩
          · intro q hq
            rcases List.mem_append.mp hq with hq | hq
            · exact le_of_lt (lt_of_lt_of_le (hm ▸ hlt) (hall q hq))
            · simp only [List.mem_singleton] at hq
              subst hq
              exact le_of_eq hm.symm
          · intro q hq
            exact lt_of_lt_of_le (hm ▸ hlt) (hall q hq)
        · rw [Option.some.injEq, Prod.mk.injEq] at h
          obtain ⟨hm, hb⟩ := h
          rename_i hnlt
          subst hm hb
          refine ⟨pre, nd, post ++ [a], by simp [hsplit], hd, hid, ?_, hpre⟩
          intro q hq
          rcases List.mem_append.mp hq with hq | hq
          · exact hall q hq
          · simp only [List.mem_singleton] at hq
            subst hq
            exact not_lt.mp hnlt

/-- C2: for every distance function (the source uses the external geopy
great-circle distance, a finite float), graph and query coordinate, the
nearest-node lookup returns `none` exactly on a graph with zero nodes, and
any returned identifier belongs to a node whose distance to the query is at
most that of every node of the graph, the first such node in iteration
order winning ties. -/
theorem C2_nearest_node (dist : ℚ × ℚ → ℚ × ℚ → ℚ) (g : Graph) (coord : ℚ × ℚ) :
    (find_nearest_node dist g coord = none ↔ g.nodes = []) ∧
    ∀ r, find_nearest_node dist g coord = some r → nearestFirst dist g coord r := by
  have hspec := fnnFold_spec dist coord g.nodes
  constructor
  · unfold find_nearest_node
    rw [Option.map_eq_none']
    exact hspec.1
  · intro r hr
    unfold find_nearest_node at hr
    rw [Option.map_eq_some'] at hr
    obtain ⟨⟨m, b⟩, hfold, hsnd⟩ := hr
    obtain ⟨pre, nd, post, hsplit, hd, hid, hall, hpre⟩ := hspec.2 m b hfold
    refine ⟨pre, nd, post, hsplit, by rw [hid]; exact hsnd, ?_, ?_⟩
    · intro q hq
      exact hd ▸ hall q hq
    · intro q hq
      exact hd ▸ hpre q hq

/-- Witness for C2: concrete squared-euclidean distance on a two-node graph;
the node with id 7 is returned and is the first minimum. -/
theorem C2_nearest_node_witness :
    find_nearest_node sqDist gNear (9, 9) = some 7 ∧
    nearestFirst sqDist gNear (9, 9) 7 :=
  ⟨by norm_num [find_nearest_node, gNear, fnnStep, sqDist, List.foldl],
   (C2_nearest_node sqDist gNear (9, 9)).2 7
     (by norm_num [find_nearest_node, gNear, fnnStep, sqDist, List.foldl])⟩

/-- A list of pairwise-distinct elements drawn from `l` is no longer than
`l`. -/
theorem nodup_length_le (p l : List ℕ) (hnodup : p.Nodup) (hsub : ∀ x ∈ p, x ∈ l) :
    p.length ≤ l.length := by
  classical
  calc p.length = p.toFinset.card := (List.toFinset_card_of_nodup hnodup).symm
    _ ≤ l.toFinset.card := Finset.card_le_card (fun x hx => by
        rw [List.mem_toFinset] at hx ⊢
        exact hsub x hx)
    _ ≤ l.length := List.toFinset_card_le l

/-- Consecutive pairs of a cons-cons list. -/
theorem routePairs_cons_cons (a b : ℕ) (l : List ℕ) :
    routePairs (a :: b :: l) = (a, b) :: routePairs (b :: l) := rfl

/-- Soundness of the DFS enumeration: every produced list is a simple path
from `u` to `t` whose edges exist, whose nodes avoid `visited`, and whose
nodes other than `u` are graph nodes. -/
theorem pathsFrom_sound (g : Graph) (t : ℕ) :
    ∀ (fuel u : ℕ) (visited : List ℕ) (p : List ℕ),
      u ∉ visited → p ∈ pathsFrom g t fuel u visited →
      p.head? = some u ∧ p.getLast? = some t ∧
      (∀ uv ∈ routePairs p, g.has_edge uv.1 uv.2 = true) ∧
      (∀ x ∈ p, x = u ∨ x ∈ g.nodeIds) ∧
      (∀ x ∈ p, x ∉ visited) ∧ p.Nodup := by
  intro fuel
  induction fuel with
  | zero =>
    intro u visited p hu hp
    unfold pathsFrom at hp
    split at hp
    · rename_i hut
      rw [List.mem_singleton] at hp
      subst hp
      subst hut
      refine ⟨rfl, rfl, by simp [routePairs], by simp, ?_, by simp⟩
      intro x hx
      rw [List.mem_singleton] at hx
      subst hx
      exact hu
    · simp at hp
  | succ fuel ih =>
    intro u visited p hu hp
    unfold pathsFrom at hp
    split at hp
    · rename_i hut
      rw [List.mem_singleton] at hp
      subst hp
      subst hut
      refine ⟨rfl, rfl, by simp [routePairs], by simp, ?_, by simp⟩
      intro x hx
      rw [List.mem_singleton] at hx
      subst hx
      exact hu
    · rename_i hut
      rw [List.mem_flatMap] at hp
      obtain ⟨v, hv, hp⟩ := hp
      rw [List.mem_filter] at hv
      obtain ⟨hvnode, hcond⟩ := hv
      rw [Bool.and_eq_true] at hcond
      obtain ⟨hedge, hnv⟩ := hcond
      have hnv2 : v ∉ u :: visited := of_decide_eq_true hnv
      rw [List.mem_map] at hp
      obtain ⟨q, hq, rfl⟩ := hp
      obtain ⟨qhead, qlast, qpairs, qmem, qvis, qnodup⟩ := ih v (u :: visited) q hnv2 hq
      obtain ⟨v2, q2, rfl⟩ : ∃ v2 q2, q = v2 :: q2 := by
        cases q with
        | nil => simp at qhead
        | cons v2 q2 => exact ⟨v2, q2, rfl⟩
      rw [List.head?_cons, Option.some.injEq] at qhead
      subst qhead
      refine ⟨rfl, ?_, ?_, ?_, ?_, ?_⟩
      · rw [List.getLast?_cons_cons]
        exact qlast
      · rw [routePairs_cons_cons]
        intro uv huv
        rcases List.mem_cons.mp huv with rfl | huv2
        · exact hedge
        · exact qpairs uv huv2
      · intro x hx
        rcases List.mem_cons.mp hx with rfl | hx2
        · exact Or.inl rfl
        · rcases qmem x hx2 with rfl | hx3
          · exact Or.inr hvnode
          · exact Or.inr hx3
      · intro x hx
        rcases List.mem_cons.mp hx with rfl | hx2
        · exact hu
        · have := qvis x hx2
          rw [List.mem_cons] at this
          push_neg at this
          exact this.2
      · rw [List.nodup_cons]
        refine ⟨?_, qnodup⟩
        intro hmem
        have := qvis u hmem
        exact this (List.mem_cons_self _ _)

/-- Completeness of the DFS enumeration: every simple path from `u` to `t`
avoiding `visited`, with graph-node tail and enough fuel, is produced. -/
theorem pathsFrom_complete (g : Graph) (t : ℕ) :
    ∀ (fuel u : ℕ) (visited : List ℕ) (p : List ℕ),
      p.head? = some u → p.getLast? = some t →
      (∀ uv ∈ routePairs p, g.has_edge uv.1 uv.2 = true) →
      (∀ x ∈ p.tail, x ∈ g.nodeIds) →
      (∀ x ∈ p, x ∉ visited) → p.Nodup →
      p.length ≤ fuel + 1 →
      p ∈ pathsFrom g t fuel u visited := by
  intro fuel
  induction fuel with
  | zero =>
    intro u visited p hhead hlast hpairs htail hvis hnodup hlen
    obtain ⟨a, q, rfl⟩ : ∃ a q, p = a :: q := by
      cases p with
      | nil => simp at hhead
      | cons a q => exact ⟨a, q, rfl⟩
    rw [List.head?_cons, Option.some.injEq] at hhead
    subst hhead
    have hq : q = [] := by
      cases q with
      | nil => rfl
      | cons b q2 => simp [List.length_cons] at hlen
    subst hq
    rw [List.getLast?_singleton, Option.some.injEq] at hlast
    unfold pathsFrom
    rw [if_pos hlast]
    subst hlast
    exact List.mem_singleton.mpr rfl
  | succ fuel ih =>
    intro u visited p hhead hlast hpairs htail hvis hnodup hlen
    obtain ⟨a, q, rfl⟩ : ∃ a q, p = a :: q := by
      cases p with
      | nil => simp at hhead
      | cons a q => exact ⟨a, q, rfl⟩
    rw [List.head?_cons, Option.some.injEq] at hhead
    subst hhead
    by_cases hut : a = t
    · have hq : q = [] := by
        cases q with
        | nil => rfl
        | cons b q2 =>
          exfalso
          rw [List.getLast?_cons_cons] at hlast
          have hmem : t ∈ b :: q2 := List.mem_of_mem_getLast? (by rw [hlast]; rfl)
          exact (List.nodup_cons.mp hnodup).1 (hut.symm ▸ hmem)
      subst hq
      unfold pathsFrom
      rw [if_pos hut, List.mem_singleton, hut]
    · obtain ⟨v, q2, rfl⟩ : ∃ v q2, q = v :: q2 := by
        cases q with
        | nil =>
          exfalso
          rw [List.getLast?_singleton, Option.some.injEq] at hlast
          exact hut hlast
        | cons v q2 => exact ⟨v, q2, rfl⟩
      unfold pathsFrom
      rw [if_neg hut, List.mem_flatMap]
      refine ⟨v, ?_, ?_⟩
      · rw [List.mem_filter]
        refine ⟨htail v (List.mem_cons_self _ _), ?_⟩
        rw [Bool.and_eq_true]
        refine ⟨hpairs (a, v) (by rw [routePairs_cons_cons]; exact List.mem_cons_self _ _), ?_⟩
        apply decide_eq_true
        rw [List.mem_cons]
        push_neg
        refine ⟨?_, hvis v (List.mem_cons_of_mem _ (List.mem_cons_self _ _))⟩
        intro h
        subst h
        exact (List.nodup_cons.mp hnodup).1 (List.mem_cons_self _ _)
      · rw [List.mem_map]
        refine ⟨v :: q2, ?_, rfl⟩
        apply ih v (a :: visited) (v :: q2) rfl
        · rw [List.getLast?_cons_cons] at hlast
          exact hlast
        · intro uv huv
          exact hpairs uv (by rw [routePairs_cons_cons]; exact List.mem_cons_of_mem _ huv)
        · intro x hx
          exact htail x (List.mem_cons_of_mem _ hx)
        · intro x hx
          rw [List.mem_cons]
          push_neg
          refine ⟨?_, hvis x (List.mem_cons_of_mem _ hx)⟩
          intro h
          subst h
          exact (List.nodup_cons.mp hnodup).1 hx
        · exact (List.nodup_cons.mp hnodup).2
        · simp only [List.length_cons] at hlen ⊢
          omega

/-- Every enumerated simple path is a simple route of the graph (the start
node must itself be a graph node, as networkx requires). -/
theorem simplePaths_sound (g : Graph) (s t : ℕ) (hs : s ∈ g.nodeIds) :
    ∀ p ∈ simplePaths g s t, isSimpleRoute g s t p := by
  intro p hp
  obtain ⟨hhead, hlast, hpairs, hmem, _, hnodup⟩ :=
    pathsFrom_sound g t g.nodes.length s [] p (by simp) hp
  refine ⟨⟨hhead, hlast, ?_, hpairs⟩, hnodup⟩
  intro x hx
  rcases hmem x hx with rfl | h
  · exact hs
  · exact h

/-- Every simple route of the graph appears in the enumeration: fuel
`g.nodes.length` is enough because a simple route is no longer than the
node list. -/
theorem simplePaths_complete (g : Graph) (s t : ℕ) :
    ∀ p, isSimpleRoute g s t p → p ∈ simplePaths g s t := by
  intro p hp
  obtain ⟨⟨hhead, hlast, hmem, hpairs⟩, hnodup⟩ := hp
  have hlen : p.length ≤ g.nodes.length := by
    have h := nodup_length_le p g.nodeIds hnodup hmem
    simpa [Graph.nodeIds] using h
  exact pathsFrom_complete g t g.nodes.length s [] p hhead hlast hpairs
    (fun x hx => hmem x (List.mem_of_mem_tail hx)) (by simp) hnodup
    (le_trans hlen (Nat.le_succ _))

/-- The running minimum of the fold inside `pickMinBy` is an element of the
candidate list. -/
theorem foldMin_mem (f : List ℕ → ℚ) :
    ∀ (ps : List (List ℕ)) (p : List ℕ),
      ps.foldl (fun best q => if f q < f best then q else best) p ∈ p :: ps := by
  intro ps
  induction ps with
  | nil => intro p; simp
  | cons r ps2 ih =>
    intro p
    rw [List.foldl_cons]
    rcases List.mem_cons.mp (ih (if f r < f p then r else p)) with h | h
    · rw [h]
      split
      · exact List.mem_cons_of_mem _ (List.mem_cons_self _ _)
      · exact List.mem_cons_self _ _
    · exact List.mem_cons_of_mem _ (List.mem_cons_of_mem _ h)

/-- The running minimum of the fold inside `pickMinBy` has cost at most
that of every candidate. -/
theorem foldMin_le (f : List ℕ → ℚ) :
    ∀ (ps : List (List ℕ)) (p q : List ℕ), q ∈ p :: ps →
      f (ps.foldl (fun best r => if f r < f best then r else best) p) ≤ f q := by
  intro ps
  induction ps with
  | nil =>
    intro p q hq
    rw [List.mem_singleton] at hq
    subst hq
    exact le_refl _
  | cons r ps2 ih =>
    intro p q hq
    rw [List.foldl_cons]
    have hcp : f (if f r < f p then r else p) ≤ f p := by
      split
      · rename_i h; exact le_of_lt h
      · exact le_refl _
    have hcr : f (if f r < f p then r else p) ≤ f r := by
      split
      · exact le_refl _
      · rename_i h; exact not_lt.mp h
    have hres := ih (if f r < f p then r else p) (if f r < f p then r else p)
      (List.mem_cons_self _ _)
    rcases List.mem_cons.mp hq with rfl | hq2
    · exact le_trans hres hcp
    · rcases List.mem_cons.mp hq2 with rfl | hq3
      · exact le_trans hres hcr
      · exact ih _ q (List.mem_cons_of_mem _ hq3)

/-- A returned shortest path is a simple route of minimum weight among all
simple routes from `s` to `t` — the contract of the networkx Dijkstra call
on non-negative weights. -/
theorem shortest_path_some (g : Graph) (w : ℕ → ℕ → ℚ) (s t : ℕ) (p : List ℕ)
    (hs : s ∈ g.nodeIds) (hp : shortest_path g w s t = some p) :
    isShortestRoute g w s t p := by
  unfold shortest_path pickMinBy at hp
  cases hsp : simplePaths g s t with
  | nil =>
    rw [hsp] at hp
    exact absurd hp (by simp)
  | cons q qs =>
    rw [hsp, Option.some.injEq] at hp
    subst hp
    constructor
    · apply simplePaths_sound g s t hs
      rw [hsp]
      exact foldMin_mem _ qs q
    · intro r hr
      have hrmem : r ∈ simplePaths g s t := simplePaths_complete g s t r hr
      rw [hsp] at hrmem
      exact foldMin_le _ qs q r hrmem

/-- `shortest_path` returns no value only when no simple route exists at
all (the `nx.NetworkXNoPath` case). -/
theorem shortest_path_none (g : Graph) (w : ℕ → ℕ → ℚ) (s t : ℕ)
    (h : shortest_path g w s t = none) : ∀ p, ¬ isSimpleRoute g s t p := by
  intro p hp
  have hmem := simplePaths_complete g s t p hp
  unfold shortest_path pickMinBy at h
  cases hsp : simplePaths g s t with
  | nil =>
    rw [hsp] at hmem
    exact absurd hmem (by simp)
  | cons q qs =>
    rw [hsp] at h
    exact absurd h (by simp)

/-- From a node to itself the only simple path is the trivial one. -/
theorem simplePaths_self (g : Graph) (s : ℕ) : simplePaths g s s = [[s]] := by
  unfold simplePaths
  cases g.nodes.length with
  | zero => simp [pathsFrom]
  | succ n => simp [pathsFrom]

/-- With `source == target` the search returns the one-node path, as
networkx does. -/
theorem shortest_path_self (g : Graph) (w : ℕ → ℕ → ℚ) (s : ℕ) :
    shortest_path g w s s = some [s] := by
  unfold shortest_path
  rw [simplePaths_self]
  rfl

/-- With `start == end` every iteration finds `[s]` again and penalises no
edge, so the loop returns `n` copies of the trivial route. -/
theorem diverseLoop_self (g : Graph) (s : ℕ) (P : ℚ) :
    ∀ (n : ℕ) (w : ℕ → ℕ → ℚ),
      diverseLoop g s s P n w = List.replicate n [s] := by
  intro n
  induction n with
  | zero => intro w; rfl
  | succ n ih =>
    intro w
    show (match shortest_path g w s s with
      | none => []
      | some route => route :: diverseLoop g s s P n (applyPenalties g P w route)) = _
    rw [shortest_path_self]
    show [s] :: diverseLoop g s s P n (applyPenalties g P w [s]) = _
    rw [List.replicate_succ, ih]

/-- Counterexample to C3 as stated: with `start == end == 0` (node present,
with outgoing edges) and `num_routes = 2` the planner returns TWO copies of
the trivial route, not a single one. -/
theorem C3_counterexample : get_diverse_routes 0 0 gTri 2 2 ≠ [[0]] := by
  unfold get_diverse_routes
  rw [diverseLoop_self]
  decide

/-- C3 (amended): with `start == end == s` (a node of the graph, as the
networkx search requires) the planner returns `num_routes` copies of the
trivial one-node route `[s]`: each iteration finds `[s]` again, and
penalising its zero traversed edges changes nothing. -/
theorem C3_trivial_route (graph : Graph) (s : ℕ) (num_routes : ℕ) (penalty_factor : ℚ)
    (hs : s ∈ graph.nodeIds) :
    get_diverse_routes s s graph num_routes penalty_factor =
      List.replicate num_routes [s] := by
  have h := hs
  unfold get_diverse_routes
  exact diverseLoop_self graph s penalty_factor num_routes graph.travelW

/-- Witness for C3 (amended) at `N = 3` on the triangle graph. -/
theorem C3_trivial_route_witness :
    0 ∈ gTri.nodeIds ∧
    get_diverse_routes 0 0 gTri 3 2 = List.replicate 3 [0] :=
  ⟨by decide, C3_trivial_route gTri 0 3 2 (by decide)⟩

/-- In a graph with no edges there is no route between distinct nodes. -/
theorem no_edges_no_route (g : Graph) (hg : g.edges = []) (s t : ℕ) (hst : s ≠ t) :
    ∀ p, ¬ isSimpleRoute g s t p := by
  intro p hp
  obtain ⟨⟨hhead, hlast, hmem, hpairs⟩, hnodup⟩ := hp
  cases p with
  | nil => simp at hhead
  | cons a q =>
    rw [List.head?_cons, Option.some.injEq] at hhead
    subst hhead
    cases q with
    | nil =>
      rw [List.getLast?_singleton, Option.some.injEq] at hlast
      exact hst hlast
    | cons b q2 =>
      have hedge := hpairs (a, b)
        (by rw [routePairs_cons_cons]; exact List.mem_cons_self _ _)
      unfold Graph.has_edge Graph.get_edge_data at hedge
      rw [hg] at hedge
      simp at hedge

/-- C5: when no path from start to end exists (and the start node is in the
graph), the planner returns the empty list as an ordinary value — the
`nx.NetworkXNoPath` raised at the first iteration is caught, the loop
breaks, and the routes found so far (none) are returned; no exception
reaches the caller. -/
theorem C5_disconnected (g : Graph) (s t : ℕ) (N : ℕ) (P : ℚ)
    (hs : s ∈ g.nodeIds) (h : ∀ p, ¬ isSimpleRoute g s t p) :
    get_diverse_routes s t g N P = [] := by
  unfold get_diverse_routes
  cases N with
  | zero => rfl
  | succ n =>
    show (match shortest_path g g.travelW s t with
      | none => []
      | some route =>
        route :: diverseLoop g s t P n (applyPenalties g P g.travelW route)) = _
    cases hsp : shortest_path g g.travelW s t with
    | none => rfl
    | some p =>
      exfalso
      exact h p (shortest_path_some g g.travelW s t p hs hsp).1

/-- Witness for C5 on the edgeless two-node graph: nodes 0 and 1 are
disconnected and the planner returns the empty list. -/
theorem C5_disconnected_witness :
    0 ∈ gNoEdges.nodeIds ∧ (∀ p, ¬ isSimpleRoute gNoEdges 0 1 p) ∧
    get_diverse_routes 0 1 gNoEdges 5 2 = [] :=
  ⟨by decide, no_edges_no_route gNoEdges rfl 0 1 (by decide),
   C5_disconnected gNoEdges 0 1 5 2 (by decide)
     (no_edges_no_route gNoEdges rfl 0 1 (by decide))⟩

/-- Closed form of the penalisation fold: each pair that is an edge
contributes one factor `P` per traversal. -/
theorem penaltyFold_eq (g : Graph) (P : ℚ) :
    ∀ (l : List (ℕ × ℕ)) (w : ℕ → ℕ → ℚ) (u v : ℕ),
      (∀ uv ∈ l, g.has_edge uv.1 uv.2 = true) →
      l.foldl (fun w uv => if g.has_edge uv.1 uv.2 then bumpW w uv.1 uv.2 P else w) w u v =
        w u v * P ^ (l.count (u, v)) := by
  intro l
  induction l with
  | nil => intro w u v _; simp
  | cons hd tl ih =>
    obtain ⟨c, d⟩ := hd
    intro w u v hall
    have hcd : g.has_edge c d = true := hall (c, d) (List.mem_cons_self _ _)
    rw [List.foldl_cons, if_pos hcd,
      ih (bumpW w c d P) u v (fun uv huv => hall uv (List.mem_cons_of_mem _ huv))]
    by_cases hc : u = c ∧ v = d
    · obtain ⟨rfl, rfl⟩ := hc
      have hb : bumpW w u v P u v = w u v * P := by
        simp [bumpW]
      rw [hb, List.count_cons, if_pos (beq_self_eq_true (u, v)), pow_succ]
      ring
    · have hb : bumpW w c d P u v = w u v := by
        simp only [bumpW]
        rw [if_neg hc]
      have hne : ¬(((c, d) == (u, v)) = true) := by
        simp only [beq_iff_eq, Prod.mk.injEq]
        rintro ⟨rfl, rfl⟩
        exact hc ⟨rfl, rfl⟩
      rw [hb, List.count_cons, if_neg hne, Nat.add_zero]

/-- Pointwise value of `applyPenalties` on a route whose pairs are edges. -/
theorem applyPenalties_apply (g : Graph) (P : ℚ) (w : ℕ → ℕ → ℚ) (route : List ℕ)
    (hroute : ∀ uv ∈ routePairs route, g.has_edge uv.1 uv.2 = true) (u v : ℕ) :
    applyPenalties g P w route u v = w u v * P ^ pairCount route u v :=
  penaltyFold_eq g P (routePairs route) w u v hroute

/-- With no routes discovered yet the accumulated weights are the original
`travel_time` weights. -/
theorem accumW_nil (g : Graph) (P : ℚ) : accumW g P [] = g.travelW := by
  funext u v
  simp [accumW, usedCount]

/-- Penalising the edges of one more discovered route turns the
accumulated weight table of `rs` into that of `rs ++ [r]`. -/
theorem accumW_snoc (g : Graph) (P : ℚ) (rs : List (List ℕ)) (r : List ℕ)
    (hr : ∀ uv ∈ routePairs r, g.has_edge uv.1 uv.2 = true) :
    applyPenalties g P (accumW g P rs) r = accumW g P (rs ++ [r]) := by
  funext u v
  rw [applyPenalties_apply g P _ r hr u v]
  unfold accumW usedCount
  simp only [List.map_append, List.sum_append, List.map_cons, List.map_nil,
    List.sum_cons, List.sum_nil, add_zero]
  rw [pow_add]
  ring

/-- Invariant of the planning loop: starting from the weight table
accumulated over previously discovered routes `rsPrev`, the loop returns at
most `n` routes, and the `i`-th returned route is a shortest path under the
weights accumulated over `rsPrev` and the routes returned before it. -/
theorem diverseLoop_spec (g : Graph) (s t : ℕ) (P : ℚ) (hs : s ∈ g.nodeIds) :
    ∀ (n : ℕ) (rsPrev : List (List ℕ)),
      (diverseLoop g s t P n (accumW g P rsPrev)).length ≤ n ∧
      ∀ i (hi : i < (diverseLoop g s t P n (accumW g P rsPrev)).length),
        isShortestRoute g
          (accumW g P (rsPrev ++ (diverseLoop g s t P n (accumW g P rsPrev)).take i)) s t
          ((diverseLoop g s t P n (accumW g P rsPrev)).get ⟨i, hi⟩) := by
  intro n
  induction n with
  | zero =>
    intro rsPrev
    exact ⟨Nat.le_refl 0, fun i hi => absurd hi (by simp [diverseLoop])⟩
  | succ n ih =>
    intro rsPrev
    cases hsp : shortest_path g (accumW g P rsPrev) s t with
    | none =>
      have hempty : diverseLoop g s t P (n + 1) (accumW g P rsPrev) = [] := by
        show (match shortest_path g (accumW g P rsPrev) s t with
          | none => []
          | some route =>
            route :: diverseLoop g s t P n (applyPenalties g P (accumW g P rsPrev) route)) = []
        rw [hsp]
      rw [hempty]
      exact ⟨Nat.zero_le _, fun i hi => absurd hi (by simp)⟩
    | some r =>
      have hshort := shortest_path_some g (accumW g P rsPrev) s t r hs hsp
      have hr : ∀ uv ∈ routePairs r, g.has_edge uv.1 uv.2 = true := hshort.1.1.2.2.2
      have hunfold : diverseLoop g s t P (n + 1) (accumW g P rsPrev) =
          r :: diverseLoop g s t P n (accumW g P (rsPrev ++ [r])) := by
        show (match shortest_path g (accumW g P rsPrev) s t with
          | none => []
          | some route =>
            route :: diverseLoop g s t P n (applyPenalties g P (accumW g P rsPrev) route)) = _
        rw [hsp]
        show r :: diverseLoop g s t P n (applyPenalties g P (accumW g P rsPrev) r) = _
        rw [accumW_snoc g P rsPrev r hr]
      rw [hunfold]
      have ih2 := ih (rsPrev ++ [r])
      constructor
      · rw [List.length_cons]
        exact Nat.succ_le_succ ih2.1
      · intro i hi
        cases i with
        | zero => simpa using hshort
        | succ j =>
          have hj : j < (diverseLoop g s t P n (accumW g P (rsPrev ++ [r]))).length := by
            rw [List.length_cons] at hi
            omega
          have h2 := ih2.2 j hj
          simpa using h2

/-- C1: the planner returns at most `num_routes` routes in discovery order;
route `i` (0-based) is a shortest path — a simple route of minimum weight
among all simple routes from start to end — under the weight table equal to
the original `travel_time` weights with every edge multiplied by the
penalty factor raised to the number of times that edge was traversed by the
previously returned routes (so route 0 is shortest under the original
weights). -/
theorem C1_penalized_shortest (g : Graph) (s t : ℕ) (N : ℕ) (P : ℚ)
    (hs : s ∈ g.nodeIds) :
    (get_diverse_routes s t g N P).length ≤ N ∧
    ∀ i (hi : i < (get_diverse_routes s t g N P).length),
      isShortestRoute g (accumW g P ((get_diverse_routes s t g N P).take i)) s t
        ((get_diverse_routes s t g N P).get ⟨i, hi⟩) := by
  have h := diverseLoop_spec g s t P hs N []
  unfold get_diverse_routes
  rw [← accumW_nil g P]
  simpa using h

/-- Witness for C1 on the triangle graph with two requested routes. -/
theorem C1_penalized_shortest_witness :
    0 ∈ gTri.nodeIds ∧
    ((get_diverse_routes 0 2 gTri 2 2).length ≤ 2 ∧
     ∀ i (hi : i < (get_diverse_routes 0 2 gTri 2 2).length),
       isShortestRoute gTri (accumW gTri 2 ((get_diverse_routes 0 2 gTri 2 2).take i)) 0 2
         ((get_diverse_routes 0 2 gTri 2 2).get ⟨i, hi⟩)) :=
  ⟨by decide, C1_penalized_shortest gTri 0 2 2 2 (by decide)⟩

theorem routeAcc_add_zero (a : RouteAcc) : RouteAcc.add a RouteAcc.zero = a := by
  cases a
  simp [RouteAcc.add, RouteAcc.zero]

theorem routeAcc_zero_add (a : RouteAcc) : RouteAcc.add RouteAcc.zero a = a := by
  cases a
  simp [RouteAcc.add, RouteAcc.zero]

theorem routeAcc_add_assoc (a b c : RouteAcc) :
    RouteAcc.add (RouteAcc.add a b) c = RouteAcc.add a (RouteAcc.add b c) := by
  cases a; cases b; cases c
  simp [RouteAcc.add, add_assoc]

theorem listTotals_nil (g : Graph) : listTotals g [] = RouteAcc.zero := rfl

theorem listTotals_cons (g : Graph) (hd : ℕ × ℕ) (tl : List (ℕ × ℕ)) :
    listTotals g (hd :: tl) = RouteAcc.add (pairTotals g hd) (listTotals g tl) := rfl

/-- A pair with no edge record leaves the state of the edge loop unchanged
(the `if edge:` guard of src/app.py line 117). -/
theorem summStep_not_found (g : Graph) (n : ℕ) (st : Option (RouteAcc × Option ℕ))
    (uv : ℕ × ℕ) (h : pairFound g uv = false) : summStep g n st uv = st := by
  cases hget : g.get_edge_data uv.1 uv.2 with
  | none =>
    cases st with
    | none => rfl
    | some p =>
      obtain ⟨acc, vc⟩ := p
      simp [summStep, hget]
  | some e =>
    exfalso
    simp [pairFound, hget] at h

/-- The edge loop of `summarize_routes` computes the same state on a pair
list as on its sublist of pairs that have an edge record: missing pairs are
skipped silently. -/
theorem summFold_filter (g : Graph) (n : ℕ) :
    ∀ (l : List (ℕ × ℕ)) (st : Option (RouteAcc × Option ℕ)),
      l.foldl (summStep g n) st = (l.filter (pairFound g)).foldl (summStep g n) st := by
  intro l
  induction l with
  | nil => intro st; rfl
  | cons hd tl ih =>
    intro st
    by_cases h : pairFound g hd = true
    · rw [List.filter_cons_of_pos h]
      simp only [List.foldl_cons]
      exact ih _
    · have h' : pairFound g hd = false := by simpa using h
      rw [List.filter_cons_of_neg (by simp [h'])]
      simp only [List.foldl_cons, summStep_not_found g n st hd h']
      exact ih st

/-- Pairs without an edge record contribute zero to the totals. -/
theorem listTotals_filter (g : Graph) :
    ∀ l : List (ℕ × ℕ), listTotals g l = listTotals g (l.filter (pairFound g)) := by
  intro l
  induction l with
  | nil => rfl
  | cons hd tl ih =>
    by_cases h : pairFound g hd = true
    · rw [List.filter_cons_of_pos h, listTotals_cons, listTotals_cons, ih]
    · have h' : pairFound g hd = false := by simpa using h
      have hget : g.get_edge_data hd.1 hd.2 = none := by
        cases hg : g.get_edge_data hd.1 hd.2 with
        | none => rfl
        | some e => exfalso; simp [pairFound, hg] at h'
      have hpt : pairTotals g hd = RouteAcc.zero := by simp [pairTotals, hget]
      rw [List.filter_cons_of_neg (by simp [h']), listTotals_cons, hpt, routeAcc_zero_add, ih]

/-- The score component of the totals is the sum of the per-pair scores. -/
theorem listTotals_score (g : Graph) :
    ∀ l : List (ℕ × ℕ), (listTotals g l).total_score = (l.map (pairScore g)).sum := by
  intro l
  induction l with
  | nil => simp [listTotals_nil, RouteAcc.zero]
  | cons hd tl ih =>
    rw [listTotals_cons]
    simp only [RouteAcc.add, List.map_cons, List.sum_cons, pairScore, ih]

/-- Every per-pair sustainability contribution is clamped to [0, 100]. -/
theorem pairScore_bounds (g : Graph) (uv : ℕ × ℕ) :
    0 ≤ pairScore g uv ∧ pairScore g uv ≤ 100 := by
  unfold pairScore pairTotals
  cases hget : g.get_edge_data uv.1 uv.2 with
  | none => exact ⟨le_refl 0, by norm_num [RouteAcc.zero]⟩
  | some e =>
    cases hv : edgeVent e with
    | none => simp only [hv]; exact ⟨le_refl 0, by norm_num [RouteAcc.zero]⟩
    | some v =>
      simp only [hv]
      exact ⟨le_max_left 0 _, max_le (by norm_num) (min_le_left _ _)⟩

/-- Characterisation of the edge loop when every found edge has a
resolvable ventilation value: the totals grow by the componentwise sum of
the pair contributions, and `vent_count` is assigned `len(route) - 1`
exactly when some pair was found. -/
theorem summFold_spec (g : Graph) (n : ℕ) :
    ∀ (l : List (ℕ × ℕ)),
      (∀ uv ∈ l, (g.get_edge_data uv.1 uv.2).isSome = true →
        ((g.get_edge_data uv.1 uv.2).bind edgeVent).isSome = true) →
      ∀ acc vc, l.foldl (summStep g n) (some (acc, vc)) =
        some (RouteAcc.add acc (listTotals g l),
          if l.any (pairFound g) then some (n - 1) else vc) := by
  intro l
  induction l with
  | nil =>
    intro _ acc vc
    simp [listTotals_nil, routeAcc_add_zero]
  | cons hd tl ih =>
    intro hres acc vc
    have hres2 : ∀ uv ∈ tl, (g.get_edge_data uv.1 uv.2).isSome = true →
        ((g.get_edge_data uv.1 uv.2).bind edgeVent).isSome = true :=
      fun uv huv => hres uv (List.mem_cons_of_mem hd huv)
    cases hget : g.get_edge_data hd.1 hd.2 with
    | none =>
      have hstep : summStep g n (some (acc, vc)) hd = some (acc, vc) :=
        summStep_not_found g n _ hd (by simp [pairFound, hget])
      rw [List.foldl_cons, hstep, ih hres2 acc vc]
      have hpf : pairFound g hd = false := by simp [pairFound, hget]
      have hpt : pairTotals g hd = RouteAcc.zero := by simp [pairTotals, hget]
      rw [listTotals_cons, hpt, routeAcc_zero_add, List.any_cons, hpf, Bool.false_or]
    | some e =>
      have hv0 : (edgeVent e).isSome = true := by
        have := hres hd (List.mem_cons_self hd tl) (by simp [hget])
        simpa [hget] using this
      obtain ⟨v, hv⟩ := Option.isSome_iff_exists.mp hv0
      have hstep : summStep g n (some (acc, vc)) hd =
          some (RouteAcc.add acc (pairTotals g hd), some (n - 1)) := by
        simp only [summStep, hget, hv]
        have hpt : pairTotals g hd =
            ⟨e.length, e.travel_time, calculate_co2 e.length, v,
             max 0 (min 100 (100 - 0.05 * calculate_co2 e.length - 10 * v))⟩ := by
          simp [pairTotals, hget, hv]
        rw [hpt]
        rfl
      rw [List.foldl_cons, hstep, ih hres2 _ _]
      have hpf : pairFound g hd = true := by simp [pairFound, hget]
      rw [listTotals_cons, routeAcc_add_assoc]
      simp [List.any_cons, hpf, ite_self]

/-- The summary row of a single route, when every found edge is resolvable
and at least one pair was found: each total is the componentwise sum of the
pair contributions, time is divided by 60 and ventilation by
`len(route) - 1`. -/
theorem summRoute_spec (g : Graph) (route : List ℕ) (vc0 : Option ℕ)
    (hres : ∀ uv ∈ routePairs route, (g.get_edge_data uv.1 uv.2).isSome = true →
      ((g.get_edge_data uv.1 uv.2).bind edgeVent).isSome = true)
    (hany : (routePairs route).any (pairFound g) = true) :
    summRoute g route vc0 =
      some (⟨route.length, (listTotals g (routePairs route)).total_length,
             (listTotals g (routePairs route)).total_time / 60,
             (listTotals g (routePairs route)).total_co2,
             (listTotals g (routePairs route)).total_ventilation / ((route.length - 1 : ℕ) : ℚ),
             (listTotals g (routePairs route)).total_score⟩, some (route.length - 1)) := by
  unfold summRoute
  rw [summFold_spec g route.length (routePairs route) hres RouteAcc.zero vc0, if_pos hany,
    routeAcc_zero_add]

/-- C9 (amended): a consecutive pair with no edge record is skipped
silently — every total of the produced summary row equals the total over
only the pairs that do have an edge record — and the summary row is still
produced provided at least one pair of the route has an edge record (with
resolvable ventilation); when no pair at all has been found the division
reads the never-assigned `vent_count` and the call fails instead (see the
counterexample). -/
theorem C9_missing_pairs (g : Graph) (route : List ℕ)
    (hres : ∀ uv ∈ routePairs route, (g.get_edge_data uv.1 uv.2).isSome = true →
      ((g.get_edge_data uv.1 uv.2).bind edgeVent).isSome = true)
    (hany : (routePairs route).any (pairFound g) = true) :
    ∃ row, summarize_routes g [route] = some [row] ∧
      row.distance_m =
        (listTotals g ((routePairs route).filter (pairFound g))).total_length ∧
      row.travel_time_min =
        (listTotals g ((routePairs route).filter (pairFound g))).total_time / 60 ∧
      row.co2_g =
        (listTotals g ((routePairs route).filter (pairFound g))).total_co2 ∧
      row.ventilation_penalty =
        (listTotals g ((routePairs route).filter (pairFound g))).total_ventilation /
          ((route.length - 1 : ℕ) : ℚ) ∧
      row.sustainability_score =
        (listTotals g ((routePairs route).filter (pairFound g))).total_score := by
  have h := summRoute_spec g route none hres hany
  refine ⟨⟨route.length, (listTotals g (routePairs route)).total_length,
          (listTotals g (routePairs route)).total_time / 60,
          (listTotals g (routePairs route)).total_co2,
          (listTotals g (routePairs route)).total_ventilation / ((route.length - 1 : ℕ) : ℚ),
          (listTotals g (routePairs route)).total_score⟩, ?_, ?_, ?_, ?_, ?_, ?_⟩
  · show summList g [route] none = _
    unfold summList
    rw [h]
    rfl
  · show (listTotals g (routePairs route)).total_length = _
    rw [← listTotals_filter]
  · show (listTotals g (routePairs route)).total_time / 60 = _
    rw [← listTotals_filter]
  · show (listTotals g (routePairs route)).total_co2 = _
    rw [← listTotals_filter]
  · show (listTotals g (routePairs route)).total_ventilation / ((route.length - 1 : ℕ) : ℚ) = _
    rw [← listTotals_filter]
  · show (listTotals g (routePairs route)).total_score = _
    rw [← listTotals_filter]

/-- Counterexample to C9 as stated: when no pair of the route has an edge
record (route `[0, 1]` in a graph with no edges), the summary is NOT
produced — `vent_count` is never assigned and the division raises
`UnboundLocalError` (embedded: the call returns `none`). -/
theorem C9_counterexample : summarize_routes gNoEdges [[0, 1]] = none := rfl

/-- Witness for C9 on a concrete route whose second pair has no edge
record: the summary row is produced and all totals come from the found
pairs only. -/
theorem C9_missing_pairs_witness :
    (∀ uv ∈ routePairs [0, 1, 2], (gMiss.get_edge_data uv.1 uv.2).isSome = true →
      ((gMiss.get_edge_data uv.1 uv.2).bind edgeVent).isSome = true) ∧
    (routePairs [0, 1, 2]).any (pairFound gMiss) = true ∧
    (∃ row, summarize_routes gMiss [[0, 1, 2]] = some [row] ∧
      row.distance_m =
        (listTotals gMiss ((routePairs [0, 1, 2]).filter (pairFound gMiss))).total_length ∧
      row.travel_time_min =
        (listTotals gMiss ((routePairs [0, 1, 2]).filter (pairFound gMiss))).total_time / 60 ∧
      row.co2_g =
        (listTotals gMiss ((routePairs [0, 1, 2]).filter (pairFound gMiss))).total_co2 ∧
      row.ventilation_penalty =
        (listTotals gMiss ((routePairs [0, 1, 2]).filter (pairFound gMiss))).total_ventilation /
          (((0 : ℕ) :: [1, 2]).length - 1 : ℕ) ∧
      row.sustainability_score =
        (listTotals gMiss ((routePairs [0, 1, 2]).filter (pairFound gMiss))).total_score) :=
  ⟨by decide, by decide, C9_missing_pairs gMiss [0, 1, 2] (by decide) (by decide)⟩

/-- C7: each traversed edge contributes the clamped per-edge score
`clamp(100 - 0.05*co2_edge - 10*ventilation_edge, 0, 100)`; the route's
total sustainability score is the SUM (not the average) of these per-edge
scores; hence the total lies between 0 and 100 times the number of
traversed edges (and, as the witness shows, can exceed 100). -/
theorem C7_sustainability_sum (g : Graph) (route : List ℕ)
    (hall : ∀ uv ∈ routePairs route,
      ((g.get_edge_data uv.1 uv.2).bind edgeVent).isSome = true)
    (hne : routePairs route ≠ []) :
    (∀ uv ∈ routePairs route, ∀ e, g.get_edge_data uv.1 uv.2 = some e →
      ∀ v, edgeVent e = some v →
        pairScore g uv = max 0 (min 100 (100 - 0.05 * calculate_co2 e.length - 10 * v))) ∧
    (∀ uv ∈ routePairs route, 0 ≤ pairScore g uv ∧ pairScore g uv ≤ 100) ∧
    ∃ row, summarize_routes g [route] = some [row] ∧
      row.sustainability_score = ((routePairs route).map (pairScore g)).sum ∧
      0 ≤ row.sustainability_score ∧
      row.sustainability_score ≤ 100 * ((routePairs route).length : ℚ) := by
  have hfound : ∀ uv ∈ routePairs route, pairFound g uv = true := by
    intro uv huv
    have h := hall uv huv
    cases hg : g.get_edge_data uv.1 uv.2 with
    | none => rw [hg] at h; simp at h
    | some e => simp [pairFound, hg]
  have hany : (routePairs route).any (pairFound g) = true := by
    obtain ⟨hd, hmem⟩ := List.exists_mem_of_ne_nil _ hne
    exact List.any_eq_true.mpr ⟨hd, hmem, hfound hd hmem⟩
  have hres : ∀ uv ∈ routePairs route, (g.get_edge_data uv.1 uv.2).isSome = true →
      ((g.get_edge_data uv.1 uv.2).bind edgeVent).isSome = true :=
    fun uv huv _ => hall uv huv
  have hsum := summRoute_spec g route none hres hany
  refine ⟨?_, fun uv _ => pairScore_bounds g uv, ?_⟩
  · intro uv _ e hget v hv
    simp [pairScore, pairTotals, hget, hv]
  · refine ⟨⟨route.length, (listTotals g (routePairs route)).total_length,
            (listTotals g (routePairs route)).total_time / 60,
            (listTotals g (routePairs route)).total_co2,
            (listTotals g (routePairs route)).total_ventilation / ((route.length - 1 : ℕ) : ℚ),
            (listTotals g (routePairs route)).total_score⟩, ?_, ?_, ?_, ?_⟩
    · show summList g [route] none = _
      unfold summList
      rw [hsum]
      rfl
    · show (listTotals g (routePairs route)).total_score = _
      rw [listTotals_score]
    · show 0 ≤ (listTotals g (routePairs route)).total_score
      rw [listTotals_score]
      refine List.sum_nonneg ?_
      intro x hx
      obtain ⟨uv, huv, rfl⟩ := List.mem_map.mp hx
      exact (pairScore_bounds g uv).1
    · show (listTotals g (routePairs route)).total_score ≤ _
      rw [listTotals_score]
      have h1 := List.sum_le_card_nsmul ((routePairs route).map (pairScore g)) 100
        (by intro x hx; obtain ⟨uv, huv, rfl⟩ := List.mem_map.mp hx
            exact (pairScore_bounds g uv).2)
      rw [List.length_map] at h1
      calc ((routePairs route).map (pairScore g)).sum
          ≤ (routePairs route).length • (100 : ℚ) := h1
        _ = 100 * ((routePairs route).length : ℚ) := by
            rw [nsmul_eq_mul, mul_comm]

/-- Witness for C7: on a route of two zero-length residential edges every
edge scores 90, the summary row carries the sum 180 — which exceeds 100,
as the claim says the total can. -/
theorem C7_sustainability_sum_witness :
    (∀ uv ∈ routePairs [0, 1, 2],
      ((gScore.get_edge_data uv.1 uv.2).bind edgeVent).isSome = true) ∧
    routePairs [0, 1, 2] ≠ [] ∧
    (∃ row, summarize_routes gScore [[0, 1, 2]] = some [row] ∧
      row.sustainability_score = ((routePairs [0, 1, 2]).map (pairScore gScore)).sum ∧
      0 ≤ row.sustainability_score ∧
      row.sustainability_score ≤ 100 * ((routePairs [0, 1, 2]).length : ℚ)) ∧
    (∃ row, summarize_routes gScore [[0, 1, 2]] = some [row] ∧
      100 < row.sustainability_score) :=
  ⟨by decide, by decide,
   (C7_sustainability_sum gScore [0, 1, 2] (by decide) (by decide)).2.2,
   ⟨⟨3, 0, 2 / 60, 0, 1, 180⟩,
    by simp [summarize_routes, summList, summRoute, summStep, routePairs, gScore,
         resEdge, Graph.get_edge_data, edgeVent, estimate_ventilation, firstHighway,
         classifyHighway, calculate_co2, RouteAcc.zero, List.foldl, List.find?];
       norm_num,
    by norm_num⟩⟩

end Alofi
